import Mathlib

/-!
Verification of the partial-application (curry-with-placeholder) engine and
the depth-limited flatten routine of this repository, as a shallow embedding.

Argument lists are modelled as `List (Arg α)`: a slot is either a real value
`Arg.val a` or the unique placeholder sentinel `Arg.hole` (the source's
`curry.placeholder` symbol, compared by identity). The target function is
modelled as a function on the full forwarded argument list, `List (Arg α) → β`,
since the engine forwards every collected slot (including trailing ones and
any placeholder past the arity window) to the target.
-/

/-- Argument slot: a real value or the placeholder sentinel (`curry.placeholder`). -/
inductive Arg (α : Type) : Type where
  | val : α → Arg α
  | hole : Arg α
deriving DecidableEq, Repr

/-- Whether a slot is the placeholder sentinel (identity comparison `item === curry.placeholder`). -/
def Arg.isHole {α : Type} : Arg α → Bool
  | Arg.hole => true
  | Arg.val _ => false

/-- Outcome of one call into the chain: either the target function's result
(`fn(...arg)`) or a new continuation closing over the pending argument list. -/
inductive CurryResult (α β : Type) : Type where
  | done : β → CurryResult α β
  | cont : List (Arg α) → CurryResult α β
deriving DecidableEq, Repr

/-- Embeds `arg.slice(0, fn.length).includes(curry.placeholder)`: does the list
contain the placeholder sentinel? -/
def hasPlaceholder {α : Type} : List (Arg α) → Bool
  | [] => false
  | Arg.hole :: _ => true
  | Arg.val _ :: rest => hasPlaceholder rest

/-- Embeds the source's readiness check
`arg.length >= fn.length && !arg.slice(0, fn.length).includes(curry.placeholder)`. -/
def isValid {α : Type} (arity : Nat) (args : List (Arg α)) : Bool :=
  decide (arity ≤ args.length) && !hasPlaceholder (args.take arity)

/-- Embeds one call of `curried(...arg)`: if the collected argument list is
ready, invoke the target on the whole list; otherwise return a continuation
closing over it. -/
def curried {α β : Type} (f : List (Arg α) → β) (arity : Nat) (args : List (Arg α)) :
    CurryResult α β :=
  if isValid arity args then CurryResult.done (f args) else CurryResult.cont args

/-- Embeds the continuation body's merge:
`arg.map(item => item === curry.placeholder && nextArg.length ? nextArg.shift() : item)`.
Returns the filled pending list together with the elements of `newArgs` not
consumed by the shifting cursor. -/
def fillHoles {α : Type} : List (Arg α) → List (Arg α) → List (Arg α) × List (Arg α)
  | [], newArgs => ([], newArgs)
  | Arg.hole :: ps, [] =>
      let r := fillHoles ps []
      (Arg.hole :: r.1, r.2)
  | Arg.hole :: ps, n :: ns =>
      let r := fillHoles ps ns
      (n :: r.1, r.2)
  | Arg.val v :: ps, newArgs =>
      let r := fillHoles ps newArgs
      (Arg.val v :: r.1, r.2)

/-- Embeds `[...resultArg, ...nextArg]`: the filled pending list followed by
the unconsumed new arguments. -/
def mergeAppend {α : Type} (pending newArgs : List (Arg α)) : List (Arg α) :=
  (fillHoles pending newArgs).1 ++ (fillHoles pending newArgs).2

/-- Embeds one call of the returned continuation: merge and append, then
re-enter `curried` on the combined list. -/
def callCont {α β : Type} (f : List (Arg α) → β) (arity : Nat)
    (pending newArgs : List (Arg α)) : CurryResult α β :=
  curried f arity (mergeAppend pending newArgs)

/-- Continuation call with the closure state made explicit: the closure
captures `arg` (the pending list); the body only reads it (`arg.map`, spread)
and never assigns to it, so the closure state after the call is the state
before the call, and the produced result is `callCont` of that state. -/
def contClosureCall {α β : Type} (f : List (Arg α) → β) (arity : Nat)
    (state newArgs : List (Arg α)) : List (Arg α) × CurryResult α β :=
  (state, callCont f arity state newArgs)

/-- Runs a chain of calls. The entry point `curried` behaves exactly like a
continuation with an empty pending list (merging into an empty list is the
identity), so a chain starts from `CurryResult.cont []`. Calling the result of
a terminated chain is a caller error (`none`). -/
def runChain {α β : Type} (f : List (Arg α) → β) (arity : Nat) :
    CurryResult α β → List (List (Arg α)) → Option (CurryResult α β)
  | s, [] => some s
  | CurryResult.cont pending, c :: cs =>
      runChain f arity (curried f arity (mergeAppend pending c)) cs
  | CurryResult.done _, _ :: _ => none

/-- Cursor-style merge, written from the spec's words: walk `pending` left to
right keeping a cursor `c` into `newArgs`; a placeholder slot with an
unexhausted cursor is replaced by the value at the cursor and the cursor
advances; every other slot is left unchanged. Returns the filled list and the
final cursor. -/
def fillSpecAux {α : Type} (newArgs : List (Arg α)) : List (Arg α) → Nat → List (Arg α) × Nat
  | [], c => ([], c)
  | p :: ps, c =>
      if p.isHole && decide (c < newArgs.length) then
        let r := fillSpecAux newArgs ps (c + 1)
        (newArgs.getD c Arg.hole :: r.1, r.2)
      else
        let r := fillSpecAux newArgs ps c
        (p :: r.1, r.2)

/-- Spec-level merge step: the filled list from the cursor walk, and the
unconsumed suffix of `newArgs` (everything from the final cursor on). -/
def mergeSpec {α : Type} (pending newArgs : List (Arg α)) : List (Arg α) × List (Arg α) :=
  ((fillSpecAux newArgs pending 0).1, newArgs.drop (fillSpecAux newArgs pending 0).2)

/-- Modelled from the spec: the source's `curry` derives the arity from the
target function's declared parameter count (`fn.length`, never negative) and
contains no construction-time validation; the spec's `makeCurried(targetFn,
arity)` with an explicit arity rejects a negative arity at construction with
an invalid-argument signal and otherwise returns the entry point (a chain
state with an empty pending list). -/
def makeCurried {α β : Type} (_f : List (Arg α) → β) (arity : Int) :
    Except String (CurryResult α β) :=
  if arity < 0 then Except.error "negative arity" else Except.ok (CurryResult.cont [])

/-- Renders one positional argument the way the template literal of the
example target `(a, b, c) => a + "_" + b + "_" + c` would see it. -/
def showArg : Option (Arg Nat) → String
  | some (Arg.val n) => toString n
  | some Arg.hole => "[placeholder]"
  | none => "undefined"

/-- Embeds the example target function `join = (a, b, c) => a_b_c` over the
forwarded argument list: it reads its first three positional arguments and
ignores the rest. -/
def join3 (args : List (Arg Nat)) : String :=
  showArg args[0]? ++ "_" ++ showArg args[1]? ++ "_" ++ showArg args[2]?

/-- Reads one positional numeric argument (0 for anything else), for the
example target `sum = (a, b, c) => a + b + c`. -/
def argNat : Option (Arg Nat) → Nat
  | some (Arg.val n) => n
  | _ => 0

/-- Embeds the example target `sum = (a, b, c) => a + b + c` over the
forwarded argument list. -/
def sumF (args : List (Arg Nat)) : Nat :=
  argNat args[0]? + argNat args[1]? + argNat args[2]?

/-- Trivial concrete target function used by witnesses. -/
def constZero : List (Arg Nat) → Nat := fun _ => 0

/-- Value stored in a (possibly sparse, possibly nested) array, for the
flatten routine. `JVal.hole` marks an absent index of a sparse array
(`!(i in currentArr)`); `JVal.undef` is the explicit `undefined` value, which
is a present element; `JVal.arr` is a nested array of slots. -/
inductive JVal : Type where
  | num : Nat → JVal
  | undef : JVal
  | hole : JVal
  | arr : List JVal → JVal

/-- Whether a slot is an absent index. -/
def JVal.isHole : JVal → Bool
  | JVal.hole => true
  | _ => false

/-- Remaining flatten depth: `none` models `Infinity`, `some d` a finite
number (the source accepts any number, including non-positive ones). -/
def depthPos : Option Int → Bool
  | none => true
  | some d => decide (0 < d)

/-- Embeds `currentDepth === Infinity ? Infinity : currentDepth - 1`. -/
def decDepth : Option Int → Option Int
  | none => none
  | some d => some (d - 1)

/-- Embeds `flattenHelper(currentArr, currentDepth)`: walks the slots in
index order; an absent index is skipped; an array value is recursed into while
depth allows, otherwise any present value is appended to the result. The
source pushes onto a shared `result` array in exactly this left-to-right
order, which the pure embedding renders as list concatenation. -/
def flattenHelper : List JVal → Option Int → List JVal
  | [], _ => []
  | JVal.hole :: rest, d => flattenHelper rest d
  | JVal.arr inner :: rest, d =>
      if depthPos d then flattenHelper inner (decDepth d) ++ flattenHelper rest d
      else JVal.arr inner :: flattenHelper rest d
  | JVal.num n :: rest, d => JVal.num n :: flattenHelper rest d
  | JVal.undef :: rest, d => JVal.undef :: flattenHelper rest d

/-- Embeds `flat(arr, depth)`: runs the helper on a fresh result. -/
def flat (arr : List JVal) (depth : Option Int) : List JVal :=
  flattenHelper arr depth

/-- Removes absent indices at every nesting level (used to state that holes
never contribute to a full flatten). -/
def compactL : List JVal → List JVal
  | [] => []
  | JVal.hole :: rest => compactL rest
  | JVal.arr inner :: rest => JVal.arr (compactL inner) :: compactL rest
  | JVal.num n :: rest => JVal.num n :: compactL rest
  | JVal.undef :: rest => JVal.undef :: compactL rest

/-- The sparse nested array built in the source's example usage:
`arr = [1, 2]; arr[4] = undefined; arr[5] = [3, 4]; arr[5][4] = [5, 6, [7, 8, [9, 10]]]`. -/
def exampleArr : List JVal :=
  [JVal.num 1, JVal.num 2, JVal.hole, JVal.hole, JVal.undef,
   JVal.arr [JVal.num 3, JVal.num 4, JVal.hole, JVal.hole,
     JVal.arr [JVal.num 5, JVal.num 6,
       JVal.arr [JVal.num 7, JVal.num 8, JVal.arr [JVal.num 9, JVal.num 10]]]]]

example : callCont constZero 3 [Arg.hole, Arg.hole, Arg.val 3, Arg.val 4] [Arg.val 1, Arg.hole]
    = CurryResult.cont [Arg.val 1, Arg.hole, Arg.val 3, Arg.val 4] := by rfl

example : flat exampleArr none =
    [JVal.num 1, JVal.num 2, JVal.undef, JVal.num 3, JVal.num 4, JVal.num 5,
     JVal.num 6, JVal.num 7, JVal.num 8, JVal.num 9, JVal.num 10] := by
  simp [flat, exampleArr, flattenHelper, depthPos, decDepth]

example : flat [JVal.num 1, JVal.arr [JVal.num 2, JVal.arr [JVal.num 3]]] (some 1) =
    [JVal.num 1, JVal.num 2, JVal.arr [JVal.num 3]] := by
  simp [flat, flattenHelper, depthPos, decDepth]

theorem hasPlaceholder_eq_false_iff {α : Type} (l : List (Arg α)) :
    hasPlaceholder l = false ↔ Arg.hole ∉ l := by
  induction l with
  | nil => simp [hasPlaceholder]
  | cons p rest ih =>
    cases p with
    | hole => simp [hasPlaceholder]
    | val v => simp [hasPlaceholder, ih]

theorem isValid_iff {α : Type} (arity : Nat) (args : List (Arg α)) :
    isValid arity args = true ↔ arity ≤ args.length ∧ Arg.hole ∉ args.take arity := by
  simp [isValid, hasPlaceholder_eq_false_iff]

theorem isValid_map_val {α : Type} (n : Nat) (vs : List α) (h : n ≤ vs.length) :
    isValid n (vs.map Arg.val) = true := by
  rw [isValid_iff]
  refine ⟨by simpa using h, fun hmem => ?_⟩
  have hl := List.take_subset n (vs.map Arg.val) hmem
  simp [List.mem_map] at hl

theorem isValid_of_short {α : Type} (n : Nat) (args : List (Arg α))
    (h : args.length < n) : isValid n args = false := by
  have hd : decide (n ≤ args.length) = false := by simp; omega
  simp [isValid, hd]

theorem fillHoles_nil {α : Type} (ps : List (Arg α)) : fillHoles ps [] = (ps, []) := by
  induction ps with
  | nil => rfl
  | cons p rest ih =>
    cases p with
    | hole => simp [fillHoles, ih]
    | val v => simp [fillHoles, ih]

theorem mergeAppend_nil {α : Type} (ps : List (Arg α)) : mergeAppend ps [] = ps := by
  simp [mergeAppend, fillHoles_nil]

theorem fillHoles_map_val {α : Type} (vs : List α) (ys : List (Arg α)) :
    fillHoles (vs.map Arg.val) ys = (vs.map Arg.val, ys) := by
  induction vs with
  | nil => rfl
  | cons v rest ih => simp [fillHoles, ih]

theorem mergeAppend_map_val {α : Type} (vs : List α) (ys : List (Arg α)) :
    mergeAppend (vs.map Arg.val) ys = vs.map Arg.val ++ ys := by
  simp [mergeAppend, fillHoles_map_val]

theorem fillHoles_fst_length {α : Type} :
    ∀ ps ys : List (Arg α), (fillHoles ps ys).1.length = ps.length := by
  intro ps
  induction ps with
  | nil => intro ys; rfl
  | cons p rest ih =>
    intro ys
    cases p with
    | val v => simp [fillHoles, ih ys]
    | hole =>
      cases ys with
      | nil => simp [fillHoles, ih []]
      | cons y ys => simp [fillHoles, ih ys]

theorem fillSpecAux_cons_pos {α : Type} (newArgs : List (Arg α)) (p : Arg α)
    (ps : List (Arg α)) (c : Nat) (hp : p.isHole = true) (hc : c < newArgs.length) :
    fillSpecAux newArgs (p :: ps) c =
      (newArgs.getD c Arg.hole :: (fillSpecAux newArgs ps (c + 1)).1,
        (fillSpecAux newArgs ps (c + 1)).2) := by
  simp [fillSpecAux, hp, hc]

theorem fillSpecAux_cons_neg {α : Type} (newArgs : List (Arg α)) (p : Arg α)
    (ps : List (Arg α)) (c : Nat)
    (h : (p.isHole && decide (c < newArgs.length)) = false) :
    fillSpecAux newArgs (p :: ps) c =
      (p :: (fillSpecAux newArgs ps c).1, (fillSpecAux newArgs ps c).2) := by
  simp only [fillSpecAux, h, Bool.false_eq_true, if_false]

theorem fillHoles_drop_eq {α : Type} (newArgs : List (Arg α)) :
    ∀ (ps : List (Arg α)) (c : Nat),
      fillHoles ps (newArgs.drop c) =
        ((fillSpecAux newArgs ps c).1, newArgs.drop (fillSpecAux newArgs ps c).2) := by
  intro ps
  induction ps with
  | nil => intro c; rfl
  | cons p rest ih =>
    intro c
    cases p with
    | val v =>
      rw [fillSpecAux_cons_neg newArgs (Arg.val v) rest c (by simp [Arg.isHole])]
      simp only [fillHoles]
      rw [ih c]
    | hole =>
      by_cases hc : c < newArgs.length
      · rw [fillSpecAux_cons_pos newArgs Arg.hole rest c rfl hc,
            List.drop_eq_getElem_cons hc]
        simp only [fillHoles]
        rw [ih (c + 1), List.getD_eq_getElem newArgs Arg.hole hc]
      · have h2 : ((Arg.hole : Arg α).isHole && decide (c < newArgs.length)) = false := by
          simp [hc]
        have hnil : newArgs.drop c = [] := List.drop_eq_nil_of_le (le_of_not_lt hc)
        rw [fillSpecAux_cons_neg newArgs Arg.hole rest c h2, hnil]
        simp only [fillHoles]
        have hrec := ih c
        rw [hnil] at hrec
        rw [hrec]

theorem runChain_cont_invalid {α β : Type} (f : List (Arg α) → β) (arity : Nat) :
    ∀ (calls : List (List (Arg α))) (s : CurryResult α β) (p : List (Arg α)),
      calls ≠ [] → runChain f arity s calls = some (CurryResult.cont p) →
      isValid arity p = false := by
  intro calls
  induction calls with
  | nil => intro s p hne; exact absurd rfl hne
  | cons c cs ih =>
    intro s p _ hrun
    cases s with
    | done b => simp [runChain] at hrun
    | cont pending =>
      simp only [runChain] at hrun
      cases cs with
      | nil =>
        simp only [runChain, Option.some.injEq] at hrun
        by_cases hv : isValid arity (mergeAppend pending c) = true
        · rw [curried, if_pos hv] at hrun
          exact absurd hrun (by simp)
        · rw [curried, if_neg hv] at hrun
          have hp : mergeAppend pending c = p := by
            injection hrun
          rw [← hp]
          exact Bool.not_eq_true _ ▸ hv
      | cons c2 cs2 => exact ih _ p (by simp) hrun

theorem runChain_groups {α β : Type} (f : List (Arg α) → β) (n : Nat) :
    ∀ (groups : List (List α)) (vs : List α),
      (∀ g ∈ groups, g ≠ []) →
      (vs ++ groups.flatten).length = n →
      groups ≠ [] →
      runChain f n (CurryResult.cont (vs.map Arg.val)) (groups.map (List.map Arg.val)) =
        some (CurryResult.done (f ((vs ++ groups.flatten).map Arg.val))) := by
  intro groups
  induction groups with
  | nil => intro vs _ _ hne; exact absurd rfl hne
  | cons g gs ih =>
    intro vs hmem hlen _
    simp only [List.map_cons, runChain, mergeAppend_map_val, ← List.map_append]
    cases gs with
    | nil =>
      have hlen2 : n ≤ (vs ++ g).length := by
        simp only [List.flatten_cons, List.flatten_nil, List.append_nil] at hlen
        omega
      have hv : isValid n ((vs ++ g).map Arg.val) = true :=
        isValid_map_val n (vs ++ g) (by simpa using hlen2)
      simp only [List.map_nil, runChain, curried, hv, if_true]
      simp [List.flatten]
    | cons g2 gs2 =>
      have hg2 : 0 < g2.length := List.length_pos.mpr (hmem g2 (by simp))
      have hlen3 : vs.length + g.length + g2.length + gs2.flatten.length = n := by
        simp only [List.flatten_cons, List.length_append] at hlen
        omega
      have hshort : ((vs ++ g).map Arg.val).length < n := by
        simp only [List.length_map, List.length_append]
        omega
      have hv : isValid n ((vs ++ g).map Arg.val) = false :=
        isValid_of_short n _ hshort
      simp only [curried, hv, Bool.false_eq_true, if_false]
      have hrec := ih (vs ++ g) (fun x hx => hmem x (by simp [hx]))
        (by simp only [List.flatten_cons, List.length_append] at *; omega)
        (by simp)
      simpa [List.append_assoc, List.flatten_cons] using hrec

theorem flattenHelper_filter (d : Option Int) :
    ∀ l : List JVal,
      flattenHelper l d = flattenHelper (l.filter (fun v => !v.isHole)) d := by
  intro l
  induction l with
  | nil => rfl
  | cons v rest ih =>
    cases v with
    | hole => simpa [flattenHelper, JVal.isHole] using ih
    | num n => simp [flattenHelper, JVal.isHole, ih]
    | undef => simp [flattenHelper, JVal.isHole, ih]
    | arr inner => simp [flattenHelper, JVal.isHole, ih]

theorem flattenHelper_compact :
    ∀ l : List JVal, flattenHelper l none = flattenHelper (compactL l) none := by
  intro l
  induction l using compactL.induct with
  | case1 => simp [compactL]
  | case2 rest ih => simpa [flattenHelper, compactL] using ih
  | case3 inner rest ih1 ih2 =>
      simp [flattenHelper, compactL, depthPos, decDepth, ih1, ih2]
  | case4 n rest ih => simp [flattenHelper, compactL, ih]
  | case5 rest ih => simp [flattenHelper, compactL, ih]

theorem flattenHelper_depth_zero :
    ∀ l : List JVal, flattenHelper l (some 0) = l.filter (fun v => !v.isHole) := by
  intro l
  induction l with
  | nil => simp [flattenHelper]
  | cons v rest ih =>
    cases v with
    | hole => simpa [flattenHelper, JVal.isHole] using ih
    | num n => simp [flattenHelper, JVal.isHole, ih]
    | undef => simp [flattenHelper, JVal.isHole, ih]
    | arr inner => simp [flattenHelper, depthPos, JVal.isHole, ih]

example : runChain join3 3 (CurryResult.cont [])
    [[Arg.hole, Arg.hole, Arg.val 3, Arg.val 4], [Arg.val 1, Arg.hole], [Arg.val 2, Arg.val 5]]
    = some (CurryResult.done "1_2_3") := by rfl

/-- C1: Merge rule / placeholder fill-order. When a continuation with pending
list `pending` is called with `newArgs`, the merge walks `pending` left to
right with a cursor into `newArgs`, replacing each placeholder slot with the
next unconsumed element (only then advancing the cursor), leaving every other
slot unchanged, keeping the filled list the same length as `pending`; an
element of `newArgs` that is itself the placeholder is consumed as an
ordinary value. In particular, pending `[_, _, 3, 4]` with arity 3 called
with `(1, _)` yields the pending list `[1, _, 3, 4]`. -/
theorem merge_rule_spec :
    (∀ (α : Type) (pending newArgs : List (Arg α)),
        fillHoles pending newArgs = mergeSpec pending newArgs ∧
        (fillHoles pending newArgs).1.length = pending.length) ∧
    (∀ f : List (Arg Nat) → Nat,
        callCont f 3 [Arg.hole, Arg.hole, Arg.val 3, Arg.val 4] [Arg.val 1, Arg.hole] =
          CurryResult.cont [Arg.val 1, Arg.hole, Arg.val 3, Arg.val 4]) := by
  constructor
  · intro α pending newArgs
    refine ⟨?_, fillHoles_fst_length pending newArgs⟩
    have h := fillHoles_drop_eq newArgs pending 0
    simpa [mergeSpec] using h
  · intro f; rfl

/-- C2: Readiness checks only the arity window. A combined list is ready iff
its length is at least the arity and none of its first `arity` elements is
the placeholder; the target is invoked exactly on ready lists, and a
placeholder at an index at or past the arity is forwarded literally: for
arity 2 the list `[5, 6, placeholder]` invokes the target on the whole list. -/
theorem readiness_arity_window :
    (∀ (α β : Type) (f : List (Arg α) → β) (arity : Nat) (args : List (Arg α)),
        (isValid arity args = true ↔
          arity ≤ args.length ∧ Arg.hole ∉ args.take arity) ∧
        ((∃ b, curried f arity args = CurryResult.done b) ↔ isValid arity args = true)) ∧
    (∀ f : List (Arg Nat) → Nat,
        curried f 2 [Arg.val 5, Arg.val 6, Arg.hole] =
          CurryResult.done (f [Arg.val 5, Arg.val 6, Arg.hole])) := by
  constructor
  · intro α β f arity args
    refine ⟨isValid_iff arity args, ?_⟩
    cases h : isValid arity args with
    | true => simp [curried, h]
    | false => simp [curried, h]
  · intro f; rfl

/-- C3: Full-application equivalence. For a target of arity `n` and `n`
concrete (non-placeholder) arguments supplied in a single call, the call
invokes the target immediately and returns exactly its result on those
arguments. -/
theorem full_application_equiv (α β : Type) (f : List (Arg α) → β) (n : Nat)
    (as : List α) (h : as.length = n) :
    curried f n (as.map Arg.val) = CurryResult.done (f (as.map Arg.val)) := by
  have hv : isValid n (as.map Arg.val) = true := isValid_map_val n as (by omega)
  simp [curried, hv]

/-- Witness for C3 at `sum` with arguments 1, 2, 3. -/
theorem full_application_equiv_witness :
    curried sumF 3 ([1, 2, 3].map Arg.val) = CurryResult.done (sumF ([1, 2, 3].map Arg.val)) :=
  full_application_equiv Nat Nat sumF 3 [1, 2, 3] rfl

/-- C4: Split-application equivalence. For any partition of `n` concrete
arguments into consecutive non-empty groups supplied across successive calls
with no placeholders, the final call returns the target's result on the full
argument list; in particular the three groupings of `sum(1, 2, 3)` all
produce 6. -/
theorem split_application_equiv :
    (∀ (α β : Type) (f : List (Arg α) → β) (n : Nat) (groups : List (List α)),
        groups ≠ [] → (∀ g ∈ groups, g ≠ []) → groups.flatten.length = n →
        runChain f n (CurryResult.cont []) (groups.map (List.map Arg.val)) =
          some (CurryResult.done (f (groups.flatten.map Arg.val)))) ∧
    runChain sumF 3 (CurryResult.cont [])
        [[Arg.val 1, Arg.val 2, Arg.val 3]] = some (CurryResult.done 6) ∧
    runChain sumF 3 (CurryResult.cont [])
        [[Arg.val 1, Arg.val 2], [Arg.val 3]] = some (CurryResult.done 6) ∧
    runChain sumF 3 (CurryResult.cont [])
        [[Arg.val 1], [Arg.val 2], [Arg.val 3]] = some (CurryResult.done 6) := by
  refine ⟨?_, by rfl, by rfl, by rfl⟩
  intro α β f n groups hne hmem hlen
  have h := runChain_groups f n groups [] hmem (by simpa using hlen) hne
  simpa using h

/-- Witness for C4 at `sum` with the grouping `(1)(2, 3)`. -/
theorem split_application_equiv_witness :
    runChain sumF 3 (CurryResult.cont []) ([[1], [2, 3]].map (List.map Arg.val)) =
      some (CurryResult.done (sumF (([[1], [2, 3]] : List (List Nat)).flatten.map Arg.val))) :=
  split_application_equiv.1 Nat Nat sumF 3 [[1], [2, 3]] (by decide) (by decide) (by decide)

/-- C5: End-to-end placeholder scenario. For the arity-3 target
`(a, b, c) => a_b_c`, the chain `curriedF(_, _, 3, 4)(1, _)(2, 5)` is still a
continuation with pending `[1, _, 3, 4]` after the second call, and the third
call terminates the chain returning the string "1_2_3" (the extra trailing
arguments 4 and 5 are forwarded and ignored by the target). -/
theorem placeholder_chain_scenario :
    runChain join3 3 (CurryResult.cont [])
        [[Arg.hole, Arg.hole, Arg.val 3, Arg.val 4], [Arg.val 1, Arg.hole]] =
      some (CurryResult.cont [Arg.val 1, Arg.hole, Arg.val 3, Arg.val 4]) ∧
    runChain join3 3 (CurryResult.cont [])
        [[Arg.hole, Arg.hole, Arg.val 3, Arg.val 4], [Arg.val 1, Arg.hole],
         [Arg.val 2, Arg.val 5]] =
      some (CurryResult.done "1_2_3") := ⟨rfl, rfl⟩

/-- C6: Construction validation. Constructing the engine with a negative
arity fails at construction time with an invalid-argument signal (no
continuation or partial-application state is produced), for `-1` and for
every negative arity. -/
theorem construction_validation :
    (∀ (α β : Type) (f : List (Arg α) → β),
        makeCurried f (-1) = Except.error "negative arity") ∧
    (∀ (α β : Type) (f : List (Arg α) → β) (a : Int), a < 0 →
        makeCurried f a = Except.error "negative arity") := by
  refine ⟨fun α β f => rfl, fun α β f a ha => ?_⟩
  simp [makeCurried, ha]

/-- Witness for C6 at arity -2. -/
theorem construction_validation_witness :
    makeCurried constZero (-2) = Except.error "negative arity" :=
  construction_validation.2 Nat Nat constZero (-2) (by decide)

/-- C7: Zero-argument call is an identity. Merging an empty argument list
into a pending list leaves it unchanged, so calling a continuation with zero
arguments returns a continuation with the same pending list whenever the
pending list is not ready; and for a zero-arity target, calling the entry
point with zero arguments invokes the target immediately. -/
theorem zero_arg_call_identity :
    (∀ (α β : Type) (f : List (Arg α) → β) (arity : Nat) (pending : List (Arg α)),
        mergeAppend pending [] = pending ∧
        (isValid arity pending = false →
          callCont f arity pending [] = CurryResult.cont pending)) ∧
    (∀ (β : Type) (g : List (Arg Nat) → β), curried g 0 [] = CurryResult.done (g [])) := by
  refine ⟨fun α β f arity pending => ⟨mergeAppend_nil pending, fun hv => ?_⟩, fun β g => rfl⟩
  simp [callCont, mergeAppend_nil, curried, hv]

/-- Witness for C7 at arity 2 with pending `[placeholder]`. -/
theorem zero_arg_call_identity_witness :
    callCont constZero 2 [Arg.hole] [] = CurryResult.cont [Arg.hole] :=
  (zero_arg_call_identity.1 Nat Nat constZero 2 [Arg.hole]).2 (by decide)

/-- C8: Continuation immutability / call independence. A call of a
continuation leaves the closure's captured pending list unchanged, and
calling the same continuation first with `xs` and then with `ys` produces for
`ys` exactly the result a fresh call with `ys` alone produces: the two calls
are fully independent. -/
theorem continuation_immutability (α β : Type) (f : List (Arg α) → β) (arity : Nat)
    (s0 xs ys : List (Arg α)) :
    (contClosureCall f arity s0 xs).1 = s0 ∧
    contClosureCall f arity (contClosureCall f arity s0 xs).1 ys =
      contClosureCall f arity s0 ys := ⟨rfl, rfl⟩

/-- C9: Implicit invariant. Every call either invokes the target (exactly
when the collected list is ready) or returns a continuation over the
unchanged non-ready list — the two outcomes are mutually exclusive; and any
continuation a chain of calls ever returns closes over a pending list that is
not ready. -/
theorem invocation_exclusive (α β : Type) (f : List (Arg α) → β) (arity : Nat) :
    (∀ args : List (Arg α),
        (isValid arity args = true ∧ curried f arity args = CurryResult.done (f args)) ∨
        (isValid arity args = false ∧ curried f arity args = CurryResult.cont args)) ∧
    (∀ (calls : List (List (Arg α))) (p : List (Arg α)), calls ≠ [] →
        runChain f arity (CurryResult.cont []) calls = some (CurryResult.cont p) →
        isValid arity p = false) := by
  constructor
  · intro args
    cases h : isValid arity args with
    | true => exact Or.inl ⟨rfl, by simp [curried, h]⟩
    | false => exact Or.inr ⟨rfl, by simp [curried, h]⟩
  · exact fun calls p => runChain_cont_invalid f arity calls (CurryResult.cont []) p

/-- Witness for C9: a single-call chain at arity 2 returning a continuation
whose pending list is not ready. -/
theorem invocation_exclusive_witness :
    isValid 2 ([Arg.hole] : List (Arg Nat)) = false :=
  (invocation_exclusive Nat Nat constZero 2).2 [[Arg.hole]] [Arg.hole] (by decide) (by rfl)

/-- C10: Implicit flat behavior. The depth-limited flatten skips absent
indices of sparse arrays at the level it visits (filtering them out changes
nothing), for a full flatten holes at every nesting level contribute nothing,
elements explicitly set to `undefined` are kept in place, at depth 0 the
output is exactly the present elements in left-to-right order, and the
source's own sparse example flattens to `[1, 2, undefined, 3, ..., 10]`. -/
theorem flat_sparse_behavior :
    (∀ (l : List JVal) (d : Option Int),
        flat l d = flat (l.filter (fun v => !v.isHole)) d) ∧
    (∀ l : List JVal, flat l none = flat (compactL l) none) ∧
    (∀ (rest : List JVal) (d : Option Int),
        flat (JVal.undef :: rest) d = JVal.undef :: flattenHelper rest d) ∧
    (∀ l : List JVal, flat l (some 0) = l.filter (fun v => !v.isHole)) ∧
    flat exampleArr none =
      [JVal.num 1, JVal.num 2, JVal.undef, JVal.num 3, JVal.num 4, JVal.num 5,
       JVal.num 6, JVal.num 7, JVal.num 8, JVal.num 9, JVal.num 10] := by
  refine ⟨fun l d => flattenHelper_filter d l, flattenHelper_compact,
    fun rest d => ?_, flattenHelper_depth_zero, ?_⟩
  · simp [flat, flattenHelper]
  · simp [flat, exampleArr, flattenHelper, depthPos, decDepth]
